import Mathlib

/-!
Shallow embedding of `server/server.py`, a small Flask voting server.

State: `CHOICES` (fixed list of names, from a directory listing at startup)
and `VOTES` (one mutable counter per choice, all zero at startup).

Endpoints:
* `index` (`GET /`): builds `table = [(CHOICES[i], i, VOTES[i]) for i]`,
  `ranked = [name for (name, i, v) in sorted(table, key=votes, reverse=True)]`
  (Python's sort is stable, also under `reverse=True`), and
  `model = [Entry(ranked.index(name), name, i, v) for (name, i, v) in table]`.
* `vote` (`GET /vote/<indices>`): splits the path segment with
  `re.split(r'\s*,\s*|\s+', indices)`, and for each token runs
  `int(token)`, checks `0 <= index < len(VOTES)`, on failure returns
  `'Invalid index: ' + format argument` (the raw token when `int` raised,
  the parsed integer when the range check raised), on success increments
  `VOTES[index]` and appends `CHOICES[index]` to the acknowledgment list.

Machine integers do not occur (Python integers are unbounded), so counters
are `Nat` and parsed indices are `Int`.
-/

namespace VotingServer

/-- ASCII whitespace, the characters the regex class backslash-s matches
on ASCII text (the model restricts to ASCII input). -/
def isWS (c : Char) : Bool :=
  c = ' ' || c = '\t' || c = '\n' || c = '\r' || c = '\x0b' || c = '\x0c'

/-- One match of the delimiter regex alternation (whitespace-wrapped comma,
or a run of whitespace) anchored at the head of `l`: returns the input
after the delimiter, or `none` when no delimiter starts here.  The first
branch takes a (possibly empty) whitespace run, a comma, and the trailing
whitespace run; the second branch needs at least one whitespace character
and consumes the maximal run (which, the first branch having failed, is
not followed by a comma). -/
def delimMatch (l : List Char) : Option (List Char) :=
  let rest := l.dropWhile isWS
  match rest with
  | ',' :: rs => some (rs.dropWhile isWS)
  | _ => if (l.takeWhile isWS).isEmpty then none else some rest

/-- Scanning loop of `re.split`: emit the token accumulated in `acc`
whenever a delimiter matches at the current position, otherwise move one
character.  Every delimiter match consumes at least one character, so
`fuel = length of the input` bounds the number of steps; the fuel-0 branch
is unreachable from `splitTokens`. -/
def splitAux : Nat → List Char → List Char → List (List Char)
  | 0, acc, _ => [acc.reverse]
  | fuel + 1, acc, l =>
    match l with
    | [] => [acc.reverse]
    | c :: cs =>
      match delimMatch (c :: cs) with
      | some rest => acc.reverse :: splitAux fuel [] rest
      | none => splitAux fuel (c :: acc) cs

/-- `re.split(r'\s*,\s*|\s+', s)`: the token list of a vote request. -/
def splitTokens (s : String) : List String :=
  (splitAux (s.data.length + 1) [] s.data).map (fun l => String.mk l)

/-- Numeric value of a decimal digit character. -/
def digitVal (c : Char) : Nat := c.toNat - 48

/-- Tail of Python's int() digit part, after at least one digit has been
read into `acc`: further digits, optionally separated by single
underscores (an underscore must sit between two digits). -/
def digitsRest (acc : Nat) : List Char → Option Nat
  | [] => some acc
  | '_' :: c :: cs => if c.isDigit then digitsRest (acc * 10 + digitVal c) cs else none
  | ['_'] => none
  | c :: cs => if c.isDigit then digitsRest (acc * 10 + digitVal c) cs else none

/-- Python's int() digit part: one digit, then `digitsRest`. -/
def parseDigits : List Char → Option Nat
  | [] => none
  | c :: cs => if c.isDigit then digitsRest (digitVal c) cs else none

/-- `int(token)` for a decimal string token (ASCII model): optional
surrounding whitespace, an optional sign, then the digit part. -/
def pyInt (tok : List Char) : Option Int :=
  let t := ((tok.dropWhile isWS).reverse.dropWhile isWS).reverse
  match t with
  | '+' :: rest => (parseDigits rest).map (fun n => (n : Int))
  | '-' :: rest => (parseDigits rest).map (fun n => -(n : Int))
  | _ => (parseDigits t).map (fun n => (n : Int))

/-- The loop of `vote(indices)` over the token list, carrying the current
counters and the acknowledgment list `chosen`.  Mirrors the Python line by
line: `int` failure returns the raw token in the message, a range-check
failure returns the parsed integer (the variable `index` was rebound by
`int`), success increments `VOTES[index]` and appends `CHOICES[index]`. -/
def runVote (choices : List String) :
    List Nat → List String → List String → List Nat × String
  | votes, [], chosen =>
    (votes, "Thanks for voting. You chose: " ++ String.intercalate ", " chosen)
  | votes, tok :: rest, chosen =>
    match pyInt tok.data with
    | none => (votes, "Invalid index: " ++ tok)
    | some i =>
      if 0 ≤ i ∧ i < (votes.length : Int) then
        runVote choices (votes.set i.toNat (votes.getD i.toNat 0 + 1)) rest
          (chosen ++ [choices.getD i.toNat ""])
      else (votes, "Invalid index: " ++ toString i)

/-- Process state: the startup choice list and the counter array. -/
structure ServerState where
  choices : List String
  votes : List Nat
deriving DecidableEq

/-- Startup: `VOTES = [0 for _ in CHOICES]`. -/
def initState (choices : List String) : ServerState :=
  ⟨choices, List.replicate choices.length 0⟩

/-- The `/vote/<indices>` handler as a state transformer returning the new
state and the plain-text response body. -/
def voteHandler (s : ServerState) (indices : String) : ServerState × String :=
  let r := runVote s.choices s.votes (splitTokens indices) []
  (⟨s.choices, r.1⟩, r.2)

/-- A row of `table`: `(CHOICES[index], index, votes)`. -/
structure TEntry where
  name : String
  idx : Nat
  votes : Nat
deriving DecidableEq

/-- A row of `model`: the namedtuple `Entry(rank, name, index, votes)`. -/
structure Entry where
  rank : Nat
  name : String
  idx : Nat
  votes : Nat
deriving DecidableEq

/-- `table`: one row per counter, `enumerate(VOTES)` paired with the
choice names. -/
def voteTable (choices : List String) (votes : List Nat) : List TEntry :=
  (List.range votes.length).map fun i => ⟨choices.getD i "", i, votes.getD i 0⟩

/-- Stable insertion of a row into a list already sorted by votes
descending: the row goes in front of the first row with at most as many
votes.  Inserting rows in reverse original order (as `sortByVotesDesc`
does) therefore puts an earlier row before later rows with equal votes,
which is the order `sorted(table, key=votes, reverse=True)` produces:
Python's sort is stable and `reverse=True` preserves stability. -/
def insertByVotes (x : TEntry) : List TEntry → List TEntry
  | [] => [x]
  | y :: ys => if y.votes ≤ x.votes then x :: y :: ys else y :: insertByVotes x ys

/-- `sorted(table, key=lambda i: i[2], reverse=True)`: stable sort by
votes descending, realized as insertion sort (both outputs are the unique
permutation ordered by the strict total order: more votes first, equal
votes by original position). -/
def sortByVotesDesc : List TEntry → List TEntry
  | [] => []
  | x :: xs => insertByVotes x (sortByVotesDesc xs)

/-- `ranked`: the names of the sorted table. -/
def rankedNames (choices : List String) (votes : List Nat) : List String :=
  (sortByVotesDesc (voteTable choices votes)).map TEntry.name

/-- `model`: each table row with `ranked.index(name)` (Python `list.index`,
the 0-based position of the first occurrence) prepended as its rank. -/
def computeModel (choices : List String) (votes : List Nat) : List Entry :=
  (voteTable choices votes).map fun e =>
    ⟨(rankedNames choices votes).indexOf e.name, e.name, e.idx, e.votes⟩

/-- The `/` handler: renders `model` from the current state; it assigns
nothing, so the state component is returned unchanged. -/
def indexHandler (s : ServerState) : ServerState × List Entry :=
  (s, computeModel s.choices s.votes)

/-- The two routes the app serves. -/
inductive Request where
  | render : Request
  | voteFor : String → Request

/-- One request against the process state. -/
def step (s : ServerState) : Request → ServerState
  | .render => (indexHandler s).1
  | .voteFor ind => (voteHandler s ind).1

/-- The process lifetime: the startup state followed by any request
sequence. -/
def runServer (choices : List String) (reqs : List Request) : ServerState :=
  reqs.foldl step (initState choices)

/-- A token the vote loop accepts against `n` counters: `int` succeeds and
the value passes `0 <= index < n`. -/
def validTok (n : Nat) (tok : String) : Bool :=
  match pyInt tok.data with
  | some i => decide (0 ≤ i ∧ i < (n : Int))
  | none => false

/-- The counter index a valid token denotes (0 for invalid tokens; only
used on valid ones). -/
def parsedVal (tok : String) : Nat :=
  match pyInt tok.data with
  | some i => i.toNat
  | none => 0

/-- The error-message payload for an invalid token: the raw token when
`int` failed, the decimal rendering of the parsed integer when the range
check failed. -/
def errStr (tok : String) : String :=
  match pyInt tok.data with
  | none => tok
  | some i => toString i

/-- Apply a list of accepted counter indices: each one increments its
counter by 1, in order. -/
def applyVotes (votes : List Nat) (vs : List Nat) : List Nat :=
  vs.foldl (fun acc n => acc.set n (acc.getD n 0 + 1)) votes

/-- The counter indices a request actually applies: the parsed values of
the longest valid prefix of its token list. -/
def processedVals (n : Nat) (toks : List String) : List Nat :=
  (toks.takeWhile (validTok n)).map parsedVal

/-! ### List helper lemmas -/

theorem getD_set_self (l : List Nat) (n a : Nat) (h : n < l.length) :
    (l.set n a).getD n 0 = a := by
  induction l generalizing n with
  | nil => simp at h
  | cons x xs ih =>
    cases n with
    | zero => simp [List.set]
    | succ m =>
      simp only [List.set, List.getD_cons_succ]
      exact ih m (by simpa using h)

theorem getD_set_ne (l : List Nat) (n j a : Nat) (h : n ≠ j) :
    (l.set n a).getD j 0 = l.getD j 0 := by
  induction l generalizing n j with
  | nil => simp [List.set]
  | cons x xs ih =>
    cases n with
    | zero =>
      cases j with
      | zero => exact absurd rfl h
      | succ m => simp [List.set]
    | succ m =>
      cases j with
      | zero => simp [List.set]
      | succ k =>
        simp only [List.set, List.getD_cons_succ]
        exact ih m k (by omega)

theorem length_applyVotes (votes vs : List Nat) :
    (applyVotes votes vs).length = votes.length := by
  induction vs generalizing votes with
  | nil => rfl
  | cons n vs ih =>
    simp only [applyVotes, List.foldl_cons] at *
    rw [ih]
    exact List.length_set ..

theorem getD_applyVotes (votes vs : List Nat) (h : ∀ n ∈ vs, n < votes.length)
    (j : Nat) :
    (applyVotes votes vs).getD j 0 = votes.getD j 0 + vs.count j := by
  induction vs generalizing votes with
  | nil => simp [applyVotes]
  | cons n vs ih =>
    simp only [applyVotes, List.foldl_cons] at *
    have hlen : (votes.set n (votes.getD n 0 + 1)).length = votes.length :=
      List.length_set ..
    have hrec := ih (votes.set n (votes.getD n 0 + 1))
      (fun m hm => by rw [hlen]; exact h m (List.mem_cons_of_mem _ hm))
    rw [hrec]
    by_cases hj : n = j
    · subst hj
      rw [getD_set_self _ _ _ (h n (List.mem_cons_self ..))]
      simp [List.count_cons]
      omega
    · rw [getD_set_ne _ _ _ _ hj]
      have : vs.count j = (n :: vs).count j := by
        simp [List.count_cons]
        omega
      omega

theorem takeWhile_append_cons {α : Type} (p : α → Bool) (pre : List α) (bad : α)
    (rest : List α) (hpre : ∀ t ∈ pre, p t = true) (hbad : p bad = false) :
    (pre ++ bad :: rest).takeWhile p = pre := by
  induction pre with
  | nil => simp [List.takeWhile, hbad]
  | cons x xs ih =>
    have hx := hpre x (List.mem_cons_self ..)
    simp only [List.cons_append, List.takeWhile_cons, hx, if_true]
    rw [ih (fun t ht => hpre t (List.mem_cons_of_mem _ ht))]

theorem tokens_decompose (n : Nat) (toks : List String) :
    (∀ t ∈ toks, validTok n t = true) ∨
      ∃ pre bad rest, toks = pre ++ bad :: rest ∧
        (∀ t ∈ pre, validTok n t = true) ∧ validTok n bad = false := by
  induction toks with
  | nil => exact Or.inl (by simp)
  | cons t ts ih =>
    cases hv : validTok n t with
    | false => exact Or.inr ⟨[], t, ts, by simp, by simp, hv⟩
    | true =>
      cases ih with
      | inl h =>
        refine Or.inl fun u hu => ?_
        rcases List.mem_cons.mp hu with h1 | h2
        · exact h1 ▸ hv
        · exact h u h2
      | inr h =>
        rcases h with ⟨pre, bad, rest, heq, hpre, hbad⟩
        refine Or.inr ⟨t :: pre, bad, rest, by rw [heq, List.cons_append], ?_, hbad⟩
        intro u hu
        rcases List.mem_cons.mp hu with h1 | h2
        · exact h1 ▸ hv
        · exact hpre u h2

theorem validTok_some {n : Nat} {tok : String} {i : Int}
    (hp : pyInt tok.data = some i) (h : validTok n tok = true) :
    0 ≤ i ∧ i < (n : Int) := by
  simp only [validTok, hp] at h
  exact of_decide_eq_true h

theorem parsedVal_eq {tok : String} {i : Int} (hp : pyInt tok.data = some i) :
    parsedVal tok = i.toNat := by
  simp [parsedVal, hp]

theorem parsedVal_lt_of_valid {n : Nat} {tok : String}
    (h : validTok n tok = true) : parsedVal tok < n := by
  cases hp : pyInt tok.data with
  | none => simp [validTok, hp] at h
  | some i =>
    have ⟨h0, hlt⟩ := validTok_some hp h
    rw [parsedVal_eq hp]
    omega

theorem processedVals_lt (n : Nat) (toks : List String) :
    ∀ v ∈ processedVals n toks, v < n := by
  intro v hv
  rcases List.mem_map.mp hv with ⟨t, ht, rfl⟩
  exact parsedVal_lt_of_valid (List.mem_takeWhile_imp ht)

/-! ### The vote loop -/

theorem runVote_all_valid (choices : List String) (votes : List Nat)
    (toks chosen : List String)
    (h : ∀ t ∈ toks, validTok votes.length t = true) :
    runVote choices votes toks chosen =
      (applyVotes votes (toks.map parsedVal),
        "Thanks for voting. You chose: " ++ String.intercalate ", "
          (chosen ++ toks.map fun t => choices.getD (parsedVal t) "")) := by
  induction toks generalizing votes chosen with
  | nil => simp [runVote, applyVotes]
  | cons tok rest ih =>
    have htok := h tok (List.mem_cons_self ..)
    cases hp : pyInt tok.data with
    | none => simp [validTok, hp] at htok
    | some i =>
      have hcond := validTok_some hp htok
      simp only [runVote, hp, if_pos hcond]
      have hlen : (votes.set i.toNat (votes.getD i.toNat 0 + 1)).length
          = votes.length := List.length_set ..
      rw [ih _ _ (fun t ht => by
        rw [hlen]; exact h t (List.mem_cons_of_mem _ ht))]
      simp [applyVotes, parsedVal_eq hp, List.append_assoc]

theorem runVote_stops_at_invalid (choices : List String) (votes : List Nat)
    (pre : List String) (bad : String) (rest chosen : List String)
    (hpre : ∀ t ∈ pre, validTok votes.length t = true)
    (hbad : validTok votes.length bad = false) :
    runVote choices votes (pre ++ bad :: rest) chosen =
      (applyVotes votes (pre.map parsedVal), "Invalid index: " ++ errStr bad) := by
  induction pre generalizing votes chosen with
  | nil =>
    simp only [List.nil_append, List.map_nil]
    cases hp : pyInt bad.data with
    | none => simp [runVote, hp, errStr, applyVotes]
    | some i =>
      have hcond : ¬(0 ≤ i ∧ i < (votes.length : Int)) := by
        simp only [validTok, hp, decide_eq_false_iff_not] at hbad
        exact hbad
      simp [runVote, hp, if_neg hcond, errStr, applyVotes]
  | cons tok pre ih =>
    have htok := hpre tok (List.mem_cons_self ..)
    cases hp : pyInt tok.data with
    | none => simp [validTok, hp] at htok
    | some i =>
      have hcond := validTok_some hp htok
      simp only [List.cons_append, runVote, hp, if_pos hcond, List.append_eq]
      have hlen : (votes.set i.toNat (votes.getD i.toNat 0 + 1)).length
          = votes.length := List.length_set ..
      rw [ih _ _ (fun t ht => by rw [hlen]; exact hpre t (List.mem_cons_of_mem _ ht))
        (by rw [hlen]; exact hbad)]
      simp [applyVotes, parsedVal_eq hp]

theorem runVote_fst (choices : List String) (votes : List Nat)
    (toks chosen : List String) :
    (runVote choices votes toks chosen).1 =
      applyVotes votes (processedVals votes.length toks) := by
  rcases tokens_decompose votes.length toks with h | ⟨pre, bad, rest, heq, hpre, hbad⟩
  · rw [runVote_all_valid choices votes toks chosen h]
    simp only [processedVals, List.takeWhile_eq_self_iff.mpr h]
  · subst heq
    rw [runVote_stops_at_invalid choices votes pre bad rest chosen hpre hbad]
    simp only [processedVals, takeWhile_append_cons _ _ _ _ hpre hbad]

/-! ### The leaderboard sort -/

/-- The strict total order realized by the stable descending sort on a
table whose rows carry distinct original positions: more votes first, and
among equal votes the smaller original index first. -/
def entryBefore (a b : TEntry) : Prop :=
  b.votes < a.votes ∨ (a.votes = b.votes ∧ a.idx < b.idx)

theorem insertByVotes_perm (x : TEntry) (l : List TEntry) :
    List.Perm (insertByVotes x l) (x :: l) := by
  induction l with
  | nil => rfl
  | cons y ys ih =>
    simp only [insertByVotes]
    by_cases h : y.votes ≤ x.votes
    · rw [if_pos h]
    · rw [if_neg h]
      exact (ih.cons y).trans (List.Perm.swap x y ys)

theorem sortByVotesDesc_perm (l : List TEntry) : List.Perm (sortByVotesDesc l) l := by
  induction l with
  | nil => rfl
  | cons x xs ih =>
    exact (insertByVotes_perm x (sortByVotesDesc xs)).trans (ih.cons x)

theorem mem_insertByVotes {z x : TEntry} {l : List TEntry}
    (h : z ∈ insertByVotes x l) : z = x ∨ z ∈ l := by
  have := (insertByVotes_perm x l).mem_iff.mp h
  simpa using this

theorem pairwise_insertByVotes (x : TEntry) (l : List TEntry)
    (hl : l.Pairwise entryBefore) (hx : ∀ y ∈ l, x.idx < y.idx) :
    (insertByVotes x l).Pairwise entryBefore := by
  induction l with
  | nil => simp [insertByVotes, List.pairwise_cons]
  | cons y ys ih =>
    rcases List.pairwise_cons.mp hl with ⟨hy, hys⟩
    simp only [insertByVotes]
    by_cases h : y.votes ≤ x.votes
    · rw [if_pos h]
      refine List.pairwise_cons.mpr ⟨?_, hl⟩
      intro z hz
      rcases List.mem_cons.mp hz with rfl | hz2
      · rcases Nat.lt_or_ge z.votes x.votes with hlt | hge
        · exact Or.inl hlt
        · exact Or.inr ⟨by omega, hx z (List.mem_cons_self ..)⟩
      · rcases hy z hz2 with hlt | ⟨heq, _⟩
        · rcases Nat.lt_or_ge z.votes x.votes with h2 | h2
          · exact Or.inl h2
          · exact Or.inr ⟨by omega, hx z (List.mem_cons_of_mem _ hz2)⟩
        · rcases Nat.lt_or_ge z.votes x.votes with h2 | h2
          · exact Or.inl h2
          · exact Or.inr ⟨by omega, hx z (List.mem_cons_of_mem _ hz2)⟩
    · rw [if_neg h]
      refine List.pairwise_cons.mpr ⟨?_, ih hys (fun z hz => hx z (List.mem_cons_of_mem _ hz))⟩
      intro z hz
      rcases mem_insertByVotes hz with rfl | hz2
      · exact Or.inl (by omega)
      · exact hy z hz2

theorem pairwise_sortByVotesDesc (l : List TEntry)
    (h : l.Pairwise fun a b => a.idx < b.idx) :
    (sortByVotesDesc l).Pairwise entryBefore := by
  induction l with
  | nil => simp [sortByVotesDesc]
  | cons x xs ih =>
    rcases List.pairwise_cons.mp h with ⟨hx, hxs⟩
    refine pairwise_insertByVotes x (sortByVotesDesc xs) (ih hxs) ?_
    intro y hy
    exact hx y ((sortByVotesDesc_perm xs).mem_iff.mp hy)

theorem voteTable_pairwise_idx (choices : List String) (votes : List Nat) :
    (voteTable choices votes).Pairwise fun a b => a.idx < b.idx := by
  unfold voteTable
  refine List.Pairwise.map _ ?_ (List.pairwise_lt_range votes.length)
  intro a b hab
  simpa using hab

/-! ### Ranks -/

theorem map_getD_range (l : List String) :
    (List.range l.length).map (fun i => l.getD i "") = l := by
  induction l with
  | nil => simp
  | cons x xs ih =>
    rw [List.length_cons, List.range_succ_eq_map, List.map_cons, List.map_map]
    simp only [List.getD_cons_zero]
    congr 1

theorem voteTable_names (choices : List String) (votes : List Nat)
    (h : votes.length = choices.length) :
    (voteTable choices votes).map TEntry.name = choices := by
  unfold voteTable
  rw [List.map_map, h]
  exact map_getD_range choices

theorem map_indexOf_self (l : List String) (h : l.Nodup) :
    l.map (fun a => l.indexOf a) = List.range l.length := by
  induction l with
  | nil => simp
  | cons x xs ih =>
    rcases List.nodup_cons.mp h with ⟨hx, hxs⟩
    rw [List.map_cons, List.indexOf_cons_self, List.length_cons,
      List.range_succ_eq_map]
    congr 1
    calc xs.map (fun a => (x :: xs).indexOf a)
        = xs.map (fun a => Nat.succ (xs.indexOf a)) := by
          refine List.map_congr_left fun a ha => ?_
          exact List.indexOf_cons_ne _ (fun hne => hx (hne ▸ ha))
      _ = (xs.map fun a => xs.indexOf a).map Nat.succ := by rw [List.map_map]; rfl
      _ = (List.range xs.length).map Nat.succ := by rw [ih hxs]

theorem rankedNames_perm (choices : List String) (votes : List Nat)
    (h : votes.length = choices.length) :
    List.Perm (rankedNames choices votes) choices := by
  unfold rankedNames
  have h1 : List.Perm ((sortByVotesDesc (voteTable choices votes)).map TEntry.name)
      ((voteTable choices votes).map TEntry.name) :=
    List.Perm.map TEntry.name (sortByVotesDesc_perm _)
  rw [voteTable_names choices votes h] at h1
  exact h1

theorem model_ranks (choices : List String) (votes : List Nat)
    (h : votes.length = choices.length) :
    (computeModel choices votes).map Entry.rank =
      choices.map fun a => (rankedNames choices votes).indexOf a := by
  unfold computeModel
  rw [List.map_map]
  have : (Entry.rank ∘ fun e : TEntry =>
      Entry.mk ((rankedNames choices votes).indexOf e.name) e.name e.idx e.votes)
      = (fun a => (rankedNames choices votes).indexOf a) ∘ TEntry.name := rfl
  rw [this, ← List.map_map, voteTable_names choices votes h]

/-! ### Claims -/

/-- C1, counterexample: with one choice at zero votes, the model assigns
rank 0 (Python `list.index` is 0-based), not the rank 1 the claim's
"ranks are exactly 1..N" requires. -/
theorem rank_zero_for_single_choice :
    (computeModel ["A"] [0]).map Entry.rank = [0] ∧ ([0] : List Nat) ≠ [1] := by
  exact ⟨by decide, by decide⟩

/-- C1, amended: the rank assigned to each choice is its 0-based position
in the list of choices sorted by current vote count descending; over the N
choices the ranks are exactly 0..N-1 (the startup state has one counter
per choice and distinct names, the directory listing having no duplicate
entries). -/
theorem ranks_are_zero_based_positions (choices : List String)
    (votes : List Nat) (hlen : votes.length = choices.length)
    (hnd : choices.Nodup) :
    List.Perm ((computeModel choices votes).map Entry.rank)
      (List.range votes.length) := by
  rw [model_ranks choices votes hlen]
  have hperm := rankedNames_perm choices votes hlen
  have hnd2 : (rankedNames choices votes).Nodup := hperm.nodup_iff.mpr hnd
  have key := map_indexOf_self (rankedNames choices votes) hnd2
  have hmap : List.Perm
      (choices.map fun a => (rankedNames choices votes).indexOf a)
      ((rankedNames choices votes).map fun a =>
        (rankedNames choices votes).indexOf a) :=
    List.Perm.map _ hperm.symm
  rw [key] at hmap
  have hlen2 : (rankedNames choices votes).length = votes.length := by
    rw [hperm.length_eq, hlen]
  rw [hlen2] at hmap
  exact hmap

/-- Witness for the amended C1 at choices A, B with votes 0, 3: the rank
list is a permutation of 0, 1. -/
theorem ranks_are_zero_based_positions_witness :
    List.Perm ((computeModel ["A", "B"] [0, 3]).map Entry.rank)
      (List.range 2) :=
  ranks_are_zero_based_positions ["A", "B"] [0, 3] rfl (by decide)

/-- C2, counterexample: the out-of-range token "+5" (three choices) is
answered with the parsed integer value in the message, not with the raw
token the claim requires. -/
theorem out_of_range_message_shows_parsed_value :
    (voteHandler ⟨["A", "B", "C"], [0, 0, 0]⟩ "+5").2 = "Invalid index: 5" ∧
      "Invalid index: 5" ≠ "Invalid index: +5" := by
  exact ⟨by decide, by decide⟩

/-- C2, amended: processing stops at the first invalid token, every valid
token before it has already incremented its counter by 1, no later token
is processed (the result does not depend on the tokens after the invalid
one), and the response is "Invalid index: " followed by the raw token when
integer parsing fails, or by the decimal rendering of the parsed value
when the range check fails (which coincides with the token for canonical
decimal tokens). -/
theorem vote_stops_at_first_invalid (s : ServerState) (ind : String)
    (pre : List String) (bad : String) (rest : List String)
    (hsplit : splitTokens ind = pre ++ bad :: rest)
    (hpre : ∀ t ∈ pre, validTok s.votes.length t = true)
    (hbad : validTok s.votes.length bad = false) :
    voteHandler s ind =
      (⟨s.choices, applyVotes s.votes (pre.map parsedVal)⟩,
        "Invalid index: " ++ errStr bad) ∧
    ∀ j, (voteHandler s ind).1.votes.getD j 0 =
      s.votes.getD j 0 + (pre.map parsedVal).count j := by
  have h0 := runVote_stops_at_invalid s.choices s.votes pre bad rest [] hpre hbad
  have h1 : voteHandler s ind =
      (⟨s.choices, applyVotes s.votes (pre.map parsedVal)⟩,
        "Invalid index: " ++ errStr bad) := by
    unfold voteHandler
    rw [hsplit, h0]
  refine ⟨h1, fun j => ?_⟩
  rw [h1]
  exact getD_applyVotes s.votes _
    (fun n hn => by
      rcases List.mem_map.mp hn with ⟨t, ht, rfl⟩
      exact parsedVal_lt_of_valid (hpre t ht)) j

/-- Witness for the amended C2: voting "0,5,1" with three choices applies
the leading valid token, stops at "5", and answers with it. -/
theorem vote_stops_at_first_invalid_witness :
    voteHandler ⟨["A", "B", "C"], [0, 0, 0]⟩ "0,5,1" =
      (⟨["A", "B", "C"], [1, 0, 0]⟩, "Invalid index: 5") := by
  have h := (vote_stops_at_first_invalid ⟨["A", "B", "C"], [0, 0, 0]⟩ "0,5,1"
    ["0"] "5" ["1"] (by decide) (by decide) (by decide)).1
  rw [h]
  decide

/-- C3: when every token of the request is a valid index, each counter
grows by exactly the number of occurrences of its index among the parsed
tokens (an index appearing twice is incremented twice; an index appearing
zero times is unchanged). -/
theorem vote_increments_each_occurrence (s : ServerState) (ind : String)
    (h : ∀ t ∈ splitTokens ind, validTok s.votes.length t = true) :
    ∀ j, (voteHandler s ind).1.votes.getD j 0 =
      s.votes.getD j 0 + ((splitTokens ind).map parsedVal).count j := by
  intro j
  show (runVote s.choices s.votes (splitTokens ind) []).1.getD j 0 = _
  rw [runVote_fst]
  have hall : processedVals s.votes.length (splitTokens ind) =
      (splitTokens ind).map parsedVal := by
    unfold processedVals
    rw [List.takeWhile_eq_self_iff.mpr h]
  rw [hall]
  exact getD_applyVotes s.votes _
    (fun n hn => by
      rcases List.mem_map.mp hn with ⟨t, ht, rfl⟩
      exact parsedVal_lt_of_valid (h t ht)) j

/-- Witness for C3: voting "1,2,1" with three zeroed counters leaves
counter 1 at exactly 2. -/
theorem vote_increments_each_occurrence_witness :
    (voteHandler ⟨["A", "B", "C"], [0, 0, 0]⟩ "1,2,1").1.votes.getD 1 0 = 2 := by
  have h := vote_increments_each_occurrence ⟨["A", "B", "C"], [0, 0, 0]⟩
    "1,2,1" (by decide) 1
  rw [h]
  decide

/-- C4: the sorted table the leaderboard derives is a permutation of the
table of all choices, its vote counts are monotonically non-increasing
along the order, and choices with tied counts appear in ascending original
index order (the stable sort's tie-break). -/
theorem leaderboard_sorted (choices : List String) (votes : List Nat) :
    List.Perm (sortByVotesDesc (voteTable choices votes))
      (voteTable choices votes) ∧
    (sortByVotesDesc (voteTable choices votes)).Pairwise
      (fun a b => b.votes ≤ a.votes ∧ (a.votes = b.votes → a.idx < b.idx)) := by
  refine ⟨sortByVotesDesc_perm _, ?_⟩
  refine (pairwise_sortByVotesDesc _ (voteTable_pairwise_idx choices votes)).imp ?_
  intro a b hab
  rcases hab with h | ⟨h1, h2⟩
  · exact ⟨Nat.le_of_lt h, fun he => by omega⟩
  · exact ⟨Nat.le_of_eq h1.symm, fun _ => h2⟩

/-- C5: process-lifetime invariants.  At startup every counter is zero and
there is one per choice; no request changes the choice list or the number
of counters; a render request leaves the state untouched, so counters are
mutated only by vote requests, and those only apply increments by 1 to the
accepted indices, so no counter ever decreases; and every accepted index is
below the counter count. -/
theorem process_invariants (choices : List String) (reqs : List Request) :
    (initState choices).votes = List.replicate choices.length 0 ∧
    (runServer choices reqs).choices = choices ∧
    (runServer choices reqs).votes.length = choices.length ∧
    (∀ s : ServerState, step s Request.render = s) ∧
    (∀ (s : ServerState) (ind : String),
      (step s (Request.voteFor ind)).votes =
        applyVotes s.votes (processedVals s.votes.length (splitTokens ind))) ∧
    (∀ (s : ServerState) (ind : String) (j : Nat),
      s.votes.getD j 0 ≤ (step s (Request.voteFor ind)).votes.getD j 0) ∧
    (∀ (n : Nat) (toks : List String),
      (processedVals n toks).all (fun v => decide (v < n)) = true) := by
  have hstepv : ∀ (s : ServerState) (ind : String),
      (step s (Request.voteFor ind)).votes =
        applyVotes s.votes (processedVals s.votes.length (splitTokens ind)) :=
    fun s ind => runVote_fst s.choices s.votes (splitTokens ind) []
  have hlen : ∀ (s : ServerState) (r : Request),
      (step s r).votes.length = s.votes.length := by
    intro s r
    cases r with
    | render => rfl
    | voteFor ind => rw [hstepv]; exact length_applyVotes ..
  have hch : ∀ (s : ServerState) (r : Request),
      (step s r).choices = s.choices := by
    intro s r
    cases r with
    | render => rfl
    | voteFor ind => rfl
  have hfold_ch : ∀ (rs : List Request) (s : ServerState),
      (rs.foldl step s).choices = s.choices := by
    intro rs
    induction rs with
    | nil => intro s; rfl
    | cons r rs ih => intro s; rw [List.foldl_cons, ih, hch]
  have hfold_len : ∀ (rs : List Request) (s : ServerState),
      (rs.foldl step s).votes.length = s.votes.length := by
    intro rs
    induction rs with
    | nil => intro s; rfl
    | cons r rs ih => intro s; rw [List.foldl_cons, ih, hlen]
  refine ⟨rfl, ?_, ?_, fun s => rfl, hstepv, ?_, ?_⟩
  · exact hfold_ch reqs (initState choices)
  · rw [runServer, hfold_len reqs (initState choices)]
    exact List.length_replicate ..
  · intro s ind j
    rw [hstepv s ind,
      getD_applyVotes s.votes _ (processedVals_lt s.votes.length _) j]
    exact Nat.le_add_right ..
  · intro n toks
    simp only [List.all_eq_true, decide_eq_true_eq]
    exact processedVals_lt n toks

/-- C6: when every token of the request is valid, the response is the
confirmation prefix followed by the chosen names in request order, joined
by a comma and a space. -/
theorem vote_response_all_valid (s : ServerState) (ind : String)
    (h : ∀ t ∈ splitTokens ind, validTok s.votes.length t = true) :
    (voteHandler s ind).2 = "Thanks for voting. You chose: " ++
      String.intercalate ", "
        ((splitTokens ind).map fun t => s.choices.getD (parsedVal t) "") := by
  show (runVote s.choices s.votes (splitTokens ind) []).2 = _
  rw [runVote_all_valid s.choices s.votes (splitTokens ind) [] h]
  simp

/-- Witness for C6: voting "0" with three choices A, B, C answers with the
confirmation naming A. -/
theorem vote_response_all_valid_witness :
    (voteHandler ⟨["A", "B", "C"], [0, 0, 0]⟩ "0").2 =
      "Thanks for voting. You chose: A" := by
  have h := vote_response_all_valid ⟨["A", "B", "C"], [0, 0, 0]⟩ "0" (by decide)
  rw [h]
  decide

/-- C7: rendering the leaderboard is pure.  `computeModel` is a total
function of the state (there is no error case), and the handler returns
the state component unchanged: counters and choice list after a render are
exactly as before. -/
theorem render_pure (s : ServerState) :
    (indexHandler s).1 = s ∧
    indexHandler s = (s, computeModel s.choices s.votes) :=
  ⟨rfl, rfl⟩

/-- C8: an empty token (as produced by consecutive commas or a trailing
comma in the indices segment) fails integer parsing, so the request stops
there with the bare response "Invalid index: " while the valid tokens
before it have already been applied. -/
theorem empty_token_rejected (s : ServerState) (ind : String)
    (pre rest : List String)
    (hsplit : splitTokens ind = pre ++ "" :: rest)
    (hpre : ∀ t ∈ pre, validTok s.votes.length t = true) :
    voteHandler s ind =
      (⟨s.choices, applyVotes s.votes (pre.map parsedVal)⟩,
        "Invalid index: ") := by
  have hbad : validTok s.votes.length "" = false := by
    simp [validTok, show pyInt "".data = none from by decide]
  have h0 := runVote_stops_at_invalid s.choices s.votes pre "" rest [] hpre hbad
  unfold voteHandler
  rw [hsplit, h0]
  simp [show ("Invalid index: " ++ errStr "") = "Invalid index: " from by decide]

/-- Witness for C8: "1,,2" splits into "1", "", "2"; the vote applies the
leading "1" and stops at the empty token with the bare message. -/
theorem empty_token_rejected_witness :
    voteHandler ⟨["A", "B", "C"], [0, 0, 0]⟩ "1,,2" =
      (⟨["A", "B", "C"], [0, 1, 0]⟩, "Invalid index: ") := by
  have h := empty_token_rejected ⟨["A", "B", "C"], [0, 0, 0]⟩ "1,,2"
    ["1"] ["2"] (by decide) (by decide)
  rw [h]
  decide

/-- C9: token parsing follows Python's int(), not just digit strings: a
leading plus sign and underscore digit separators are accepted ("+1"
parses as 1, "1_0" as 10) and record a vote at the parsed index when it is
in range, and an in-range parse that fails only the range check reports
the parsed value, so "+5" with at most five counters answers
"Invalid index: 5". -/
theorem python_int_token_parsing (s : ServerState) :
    pyInt (String.data "+1") = some 1 ∧
    pyInt (String.data "1_0") = some 10 ∧
    (1 < s.votes.length →
      (voteHandler s "+1").1.votes = s.votes.set 1 (s.votes.getD 1 0 + 1)) ∧
    (10 < s.votes.length →
      (voteHandler s "1_0").1.votes = s.votes.set 10 (s.votes.getD 10 0 + 1)) ∧
    (s.votes.length ≤ 5 →
      voteHandler s "+5" = (⟨s.choices, s.votes⟩, "Invalid index: 5")) := by
  refine ⟨by decide, by decide, ?_, ?_, ?_⟩
  · intro h1
    have hv : validTok s.votes.length "+1" = true := by
      simp only [validTok, show pyInt (String.data "+1") = some 1 from by decide,
        decide_eq_true_eq]
      omega
    have hproc : processedVals s.votes.length ["+1"] = [1] := by
      simp [processedVals, List.takeWhile_cons, hv,
        show parsedVal "+1" = 1 from by decide]
    show (runVote s.choices s.votes (splitTokens "+1") []).1 = _
    rw [show splitTokens "+1" = ["+1"] from by decide, runVote_fst, hproc]
    simp [applyVotes]
  · intro h10
    have hv : validTok s.votes.length "1_0" = true := by
      simp only [validTok, show pyInt (String.data "1_0") = some 10 from by decide,
        decide_eq_true_eq]
      omega
    have hproc : processedVals s.votes.length ["1_0"] = [10] := by
      simp [processedVals, List.takeWhile_cons, hv,
        show parsedVal "1_0" = 10 from by decide]
    show (runVote s.choices s.votes (splitTokens "1_0") []).1 = _
    rw [show splitTokens "1_0" = ["1_0"] from by decide, runVote_fst, hproc]
    simp [applyVotes]
  · intro h5
    have hbad : validTok s.votes.length "+5" = false := by
      simp only [validTok, show pyInt (String.data "+5") = some 5 from by decide,
        decide_eq_false_iff_not]
      omega
    have h0 := runVote_stops_at_invalid s.choices s.votes [] "+5" [] [] (by simp) hbad
    simp only [List.nil_append] at h0
    unfold voteHandler
    rw [show splitTokens "+5" = ["+5"] from by decide, h0]
    simp [applyVotes,
      show ("Invalid index: " ++ errStr "+5") = "Invalid index: 5" from by decide]

/-- Witness for C9: "+1" records a vote for index 1 of two counters, and
"+5" against three counters answers with the parsed value 5. -/
theorem python_int_token_parsing_witness :
    (voteHandler ⟨["a", "b"], [0, 0]⟩ "+1").1.votes = [0, 1] ∧
    (voteHandler ⟨["a", "b", "c"], [0, 0, 0]⟩ "+5").2 = "Invalid index: 5" := by
  constructor
  · have h := (python_int_token_parsing ⟨["a", "b"], [0, 0]⟩).2.2.1 (by decide)
    rw [h]
    decide
  · have h := (python_int_token_parsing ⟨["a", "b", "c"], [0, 0, 0]⟩).2.2.2.2
      (by decide)
    rw [h]

/-- C10: a vote request never modifies the choice list, and every counter
whose index is not among the applied (valid-prefix) token values is left
unchanged. -/
theorem vote_frame (s : ServerState) (ind : String) :
    (voteHandler s ind).1.choices = s.choices ∧
    ∀ j, j ∉ processedVals s.votes.length (splitTokens ind) →
      (voteHandler s ind).1.votes.getD j 0 = s.votes.getD j 0 := by
  refine ⟨rfl, fun j hj => ?_⟩
  show (runVote s.choices s.votes (splitTokens ind) []).1.getD j 0 = _
  rw [runVote_fst,
    getD_applyVotes s.votes _ (processedVals_lt s.votes.length _) j,
    List.count_eq_zero.mpr hj]
  exact Nat.add_zero ..

/-- Witness for C10: voting "2" leaves counter 0 untouched. -/
theorem vote_frame_witness :
    (voteHandler ⟨["A", "B", "C"], [5, 6, 7]⟩ "2").1.votes.getD 0 0 = 5 := by
  have h := (vote_frame ⟨["A", "B", "C"], [5, 6, 7]⟩ "2").2 0 (by decide)
  rw [h]
  decide

end VotingServer
